import Mathlib

/-!
Verification of the tagged-section parser and its callers in
`streamlit_app.py` of the research_helper application.

The parser (repeated verbatim inside `gpt_analyze_all`,
`gpt_analyze_structure`, `gpt_analyze_keywords_themes`,
`gpt_analyze_references` and `gpt_compare_papers`) reads the upstream
model response line by line, recognises label lines of the shape
`[Label]`, and accumulates the non-blank lines following a label into a
dictionary entry.  We embed the Python code shallowly: strings are
`String`, `str.split('\n')` becomes `splitNlL`, `str.strip()` becomes
`stripL` (dropping the ASCII whitespace characters Python strips; rare
Unicode whitespace is not modelled), Python dicts become
insertion-ordered association lists with in-place overwrite
(`dictInsert`), and Python truthiness of the `current_section` variable
(`None` or the empty string are falsy) is `truthy`.
-/

/-- The whitespace characters removed by Python `str.strip()`
(ASCII subset: space, tab, newline, carriage return, form feed,
vertical tab). -/
def isPySpace (c : Char) : Bool :=
  c = ' ' || c = '\t' || c = '\n' || c = '\r' || c = '\x0c' || c = '\x0b'

/-- Drop leading Python whitespace (the front half of `str.strip()`). -/
def fstrip (l : List Char) : List Char := l.dropWhile isPySpace

/-- Drop trailing Python whitespace (the back half of `str.strip()`). -/
def bstrip (l : List Char) : List Char := (fstrip l.reverse).reverse

/-- Python `str.strip()` on a character list. -/
def stripL (l : List Char) : List Char := bstrip (fstrip l)

/-- Python `str.strip()`. -/
def pyStrip (s : String) : String := ⟨stripL s.data⟩

/-- Python `str.split('\n')` on a character list: splits at every
newline and keeps empty pieces, so `splitNlL [] = [[]]` just as
`''.split('\n') == ['']`. -/
def splitNlL (l : List Char) : List (List Char) :=
  match l with
  | [] => [[]]
  | c :: rest =>
    if c = '\n' then [] :: splitNlL rest
    else
      match splitNlL rest with
      | [] => [[c]]
      | x :: xs => (c :: x) :: xs

/-- Python `s.split('\n')`. -/
def pySplitNl (s : String) : List String := (splitNlL s.data).map String.mk

/-- Python `'\n'.join(...)` on character lists. -/
def joinNlL : List (List Char) → List Char
  | [] => []
  | [x] => x
  | x :: y :: ys => x ++ '\n' :: joinNlL (y :: ys)

/-- Python `'\n'.join(...)`. -/
def joinNl (ls : List String) : String := ⟨joinNlL (ls.map String.data)⟩

/-- Python dict assignment `d[k] = v` on an insertion-ordered
association list: an existing key keeps its position and gets the new
value, a new key is appended at the end. -/
def dictInsert (m : List (String × String)) (k v : String) :
    List (String × String) :=
  match m with
  | [] => [(k, v)]
  | (k1, v1) :: rest =>
    if k1 = k then (k, v) :: rest else (k1, v1) :: dictInsert rest k v

/-- Python truthiness of the `current_section` variable, which is either
`None` or a string: `None` and `""` are falsy. -/
def truthy : Option String → Bool
  | none => false
  | some s => s != ""

/-- State of the section-parsing loop: the `sections` dict, the
`current_section` variable and the `current_content` buffer. -/
structure ParseState where
  sections : List (String × String)
  currentSection : Option String
  currentContent : List String
deriving DecidableEq, Repr

/-- Loop state before the first line: `sections = {}`,
`current_section = None`, `current_content = []`. -/
def initState : ParseState := ⟨[], none, []⟩

/-- Source line 112: `line.strip().startswith('[') and
line.strip().endswith(']')`. -/
def isLabelLine (line : String) : Bool :=
  (stripL line.data).head? == some '[' && (stripL line.data).getLast? == some ']'

/-- Source line 115: `line.strip()[1:-1]` — strip one leading and one
trailing character from the stripped line. -/
def labelOf (line : String) : String :=
  ⟨((stripL line.data).drop 1).dropLast⟩

/-- Source lines 114/122: `'\n'.join(current_content).strip()`. -/
def finalize (content : List String) : String := pyStrip (joinNl content)

/-- The store step `sections[current_section] = '\n'.join(...).strip()`
guarded by `if current_section:` (lines 113-114 and 121-122). -/
def flushState (st : ParseState) : List (String × String) :=
  match st.currentSection with
  | none => st.sections
  | some k =>
    if k = "" then st.sections else dictInsert st.sections k (finalize st.currentContent)

/-- One iteration of the loop body (source lines 111-119). -/
def parseStep (st : ParseState) (line : String) : ParseState :=
  if isLabelLine line then
    ⟨flushState st, some (labelOf line), []⟩
  else if truthy st.currentSection && (pyStrip line != "") then
    ⟨st.sections, st.currentSection, st.currentContent ++ [line]⟩
  else st

/-- The whole loop over an explicit list of lines, with the final store
of lines 121-122. -/
def parseLines (ls : List String) : List (String × String) :=
  flushState (ls.foldl parseStep initState)

/-- The section parser (source lines 107-122): split the response on
newlines and run the loop. -/
def parseSections (result : String) : List (String × String) :=
  parseLines (pySplitNl result)

/-- Number of label lines of an input. -/
def numLabelLines (s : String) : Nat :=
  ((pySplitNl s).filter (fun l => isLabelLine l)).length

/-- The lines of a stored section body, in the sense of Python
`str.splitlines` restricted to bodies without trailing newline: the
empty string has no lines, otherwise split on `'\n'`. -/
def bodyLines (v : String) : List String :=
  if v = "" then [] else (splitNlL v.data).map String.mk

/-- Invariant of an entry stored by the parsing loop: the key is a
non-empty single line, the value is strip-normalized and every one of
its lines is non-blank. -/
def EntryInv (kv : String × String) : Prop :=
  kv.1 ≠ "" ∧ '\n' ∉ kv.1.data ∧ pyStrip kv.2 = kv.2 ∧
    ∀ l ∈ bodyLines kv.2, pyStrip l ≠ ""

/-- Invariant of the loop state: stored entries satisfy `EntryInv`,
keys are distinct, buffered lines are non-blank single lines, and the
open label is a single line. -/
def StateInv (st : ParseState) : Prop :=
  (∀ kv ∈ st.sections, EntryInv kv) ∧
  (st.sections.map Prod.fst).Nodup ∧
  (∀ l ∈ st.currentContent, pyStrip l ≠ "" ∧ '\n' ∉ l.data) ∧
  (∀ k, st.currentSection = some k → '\n' ∉ k.data)

/-- Outcome of the upstream `client.chat.completions.create(...)` call
site: either a response text or a raised exception with message
`str(e)`.  The call itself (network, prompt construction, truncation of
the prompt text) is an external collaborator. -/
inductive UpstreamResult where
  | ok (content : String)
  | exn (msg : String)
deriving DecidableEq, Repr

/-- `gpt_analyze_all` (source lines 59-127) from the client check
onwards: `apiKey = none` models `get_openai_client()` returning `None`
(lines 62-64); a raised upstream exception is caught by the
`except` clause (lines 126-127); otherwise the response is parsed and
line 124 substitutes the fallback `{"핵심요약": result}` when the parsed
dict is empty. -/
def gpt_analyze_all (apiKey : Option String) (up : UpstreamResult) :
    List (String × String) :=
  match apiKey, up with
  | none, _ => [("error", "OpenAI API 키가 설정되지 않았습니다.")]
  | some _, UpstreamResult.exn msg => [("error", "GPT 분석 실패: " ++ msg)]
  | some _, UpstreamResult.ok result =>
    let sections := parseSections result
    if sections.isEmpty then [("핵심요약", result)] else sections

/-- `gpt_analyze_structure` (source lines 129-195): identical parser,
but line 192 substitutes the constant `{"error": "구조 분석 실패"}` when the
parsed dict is empty, discarding the response. -/
def gpt_analyze_structure (apiKey : Option String) (up : UpstreamResult) :
    List (String × String) :=
  match apiKey, up with
  | none, _ => [("error", "OpenAI API 키가 설정되지 않았습니다.")]
  | some _, UpstreamResult.exn msg => [("error", "구조 분석 실패: " ++ msg)]
  | some _, UpstreamResult.ok result =>
    let sections := parseSections result
    if sections.isEmpty then [("error", "구조 분석 실패")] else sections

/-- Rendering of one SectionMap entry as `[key]` on its own line
followed by the body. -/
def renderEntry (kv : String × String) : String :=
  "[" ++ kv.1 ++ "]" ++ "\n" ++ kv.2

/-- Rendering of a whole SectionMap: the rendered entries joined by a
newline, so that each label starts on its own line. -/
def renderMap (m : List (String × String)) : String :=
  joinNl (m.map renderEntry)

/-- Python `s[:n]` on a string (by code point, as Python indexes str). -/
def strTake (s : String) (n : Nat) : String := ⟨s.data.take n⟩

/-- Python `s[n:]` on a string. -/
def strDrop (s : String) (n : Nat) : String := ⟨s.data.drop n⟩

/-- The cut index `int(len(text) * 0.8)` of source line 301.  The
source computes it with a floating-point multiplication by `0.8`
followed by `int` truncation; we use the exact value `⌊4·n / 5⌋`. -/
def refCut (n : Nat) : Nat := 4 * n / 5

/-- The value of `ref_section` after the pattern loop (source lines
292-296): `""` if no heading pattern matched, otherwise the first match
group truncated to its first 8000 characters. -/
def matchedRef (matched : Option String) : String :=
  match matched with
  | none => ""
  | some g => strTake g 8000

/-- Source lines 299-303 of `gpt_analyze_references`: if `ref_section`
is empty or shorter than 200 characters, fall back to the trailing 20%
of the document text truncated to 8000 characters, but only when that
trailing part is longer than 500 characters. -/
def refSectionOf (matched : Option String) (text : String) : String :=
  if matchedRef matched = "" || (matchedRef matched).length < 200 then
    if 500 < (strDrop text (refCut text.length)).length
    then strTake (strDrop text (refCut text.length)) 8000
    else matchedRef matched
  else matchedRef matched

theorem str_ext {a b : String} (h : a.data = b.data) : a = b := by
  cases a; cases b; exact congrArg String.mk h

theorem mk_data (l : List Char) : (String.mk l).data = l := rfl

theorem empty_data : ("" : String).data = [] := rfl

theorem mk_eq_empty_iff (l : List Char) : String.mk l = "" ↔ l = [] := by
  constructor
  · intro h
    have := congrArg String.data h
    simpa using this
  · rintro rfl; rfl

theorem pyStrip_eq_empty_iff (s : String) : pyStrip s = "" ↔ stripL s.data = [] := by
  unfold pyStrip
  exact mk_eq_empty_iff _

theorem fstrip_append (a b : List Char) (h : fstrip a ≠ []) :
    fstrip (a ++ b) = fstrip a ++ b := by
  unfold fstrip at *
  rw [List.dropWhile_append]
  simp only [List.isEmpty_iff]
  split
  · exact absurd (by assumption) h
  · rfl

theorem fstrip_append_nil (a b : List Char) (h : fstrip a = []) :
    fstrip (a ++ b) = fstrip b := by
  unfold fstrip at *
  rw [List.dropWhile_append]
  simp [List.isEmpty_iff, h]

theorem fstrip_nil : fstrip [] = [] := rfl

theorem bstrip_nil : bstrip [] = [] := rfl

theorem fstrip_cons (c : Char) (xs : List Char) :
    fstrip (c :: xs) = if isPySpace c then fstrip xs else c :: xs :=
  List.dropWhile_cons

theorem fstrip_eq_nil_iff (l : List Char) :
    fstrip l = [] ↔ ∀ c ∈ l, isPySpace c = true :=
  List.dropWhile_eq_nil_iff

theorem bstrip_eq_nil_iff (l : List Char) :
    bstrip l = [] ↔ ∀ c ∈ l, isPySpace c = true := by
  unfold bstrip
  rw [List.reverse_eq_nil_iff, fstrip_eq_nil_iff]
  constructor
  · intro h c hc
    exact h c (List.mem_reverse.mpr hc)
  · intro h c hc
    exact h c (List.mem_reverse.mp hc)

theorem bstrip_append (a b : List Char) (h : bstrip b ≠ []) :
    bstrip (a ++ b) = a ++ bstrip b := by
  have hb : fstrip b.reverse ≠ [] := by
    intro hh
    apply h
    unfold bstrip
    rw [hh]
    rfl
  unfold bstrip
  rw [List.reverse_append, fstrip_append _ _ hb]
  simp

theorem fstrip_idem (l : List Char) : fstrip (fstrip l) = fstrip l := by
  induction l with
  | nil => rfl
  | cons c rest ih =>
    rw [fstrip_cons]
    split
    · exact ih
    · rw [fstrip_cons]
      simp_all

theorem bstrip_idem (l : List Char) : bstrip (bstrip l) = bstrip l := by
  unfold bstrip
  simp [fstrip_idem]

theorem bstrip_cons (c : Char) (xs : List Char) :
    bstrip (c :: xs) =
      if bstrip xs = [] then (if isPySpace c then [] else [c]) else c :: bstrip xs := by
  have hrev : (c :: xs).reverse = xs.reverse ++ [c] := by simp
  by_cases h : bstrip xs = []
  · have hf : fstrip xs.reverse = [] := by
      rw [fstrip_eq_nil_iff]
      intro x hx
      exact (bstrip_eq_nil_iff xs).mp h x (List.mem_reverse.mp hx)
    rw [if_pos h]
    unfold bstrip
    rw [hrev, fstrip_append_nil _ _ hf]
    rw [show fstrip [c] = if isPySpace c then [] else [c] from by
      rw [fstrip_cons]; split <;> rfl]
    split <;> rfl
  · have hf : fstrip xs.reverse ≠ [] := by
      intro hh
      apply h
      unfold bstrip
      rw [hh]
      rfl
    rw [if_neg h]
    unfold bstrip
    rw [hrev, fstrip_append _ _ hf]
    simp

theorem fb_comm (l : List Char) : fstrip (bstrip l) = bstrip (fstrip l) := by
  induction l with
  | nil => rfl
  | cons c xs ih =>
    rw [bstrip_cons, fstrip_cons]
    by_cases hc : isPySpace c <;> by_cases h : bstrip xs = []
    · have hfx : fstrip xs = [] := by
        rw [fstrip_eq_nil_iff]
        exact (bstrip_eq_nil_iff xs).mp h
      simp [hc, h, hfx, fstrip_nil, bstrip_nil]
    · simp [hc, h, fstrip_cons, ih]
    · simp [hc, h, fstrip_cons, bstrip_cons, fstrip_nil]
    · simp [hc, h, fstrip_cons, bstrip_cons]

theorem stripL_idem (l : List Char) : stripL (stripL l) = stripL l := by
  unfold stripL
  rw [fb_comm (fstrip l), fstrip_idem, bstrip_idem]

theorem stripL_fstrip (l : List Char) : stripL (fstrip l) = stripL l := by
  unfold stripL
  rw [fstrip_idem]

theorem stripL_bstrip (l : List Char) : stripL (bstrip l) = stripL l := by
  unfold stripL
  rw [fb_comm, bstrip_idem]

theorem fstrip_ne_nil_of_stripL (l : List Char) (h : stripL l ≠ []) : fstrip l ≠ [] := by
  intro hf
  apply h
  unfold stripL
  rw [hf]
  rfl

theorem bstrip_ne_nil_of_stripL (l : List Char) (h : stripL l ≠ []) : bstrip l ≠ [] := by
  intro hb
  apply h
  rw [← stripL_bstrip, hb]
  rfl

theorem mem_fstrip {c : Char} {l : List Char} (h : c ∈ fstrip l) : c ∈ l :=
  (List.dropWhile_sublist _).mem h

theorem mem_bstrip {c : Char} {l : List Char} (h : c ∈ bstrip l) : c ∈ l := by
  unfold bstrip at h
  have := mem_fstrip (List.mem_reverse.mp h)
  simpa using this

theorem mem_stripL {c : Char} {l : List Char} (h : c ∈ stripL l) : c ∈ l :=
  mem_fstrip (mem_bstrip h)

theorem splitNlL_nil : splitNlL [] = [[]] := rfl

theorem splitNlL_cons_nl (rest : List Char) :
    splitNlL ('\n' :: rest) = [] :: splitNlL rest := by
  simp [splitNlL]

theorem splitNlL_ne_nil (l : List Char) : splitNlL l ≠ [] := by
  cases l with
  | nil => simp [splitNlL]
  | cons c rest =>
    simp only [splitNlL]
    split
    · simp
    · split <;> simp

theorem splitNlL_cons (c : Char) (rest : List Char) (hc : c ≠ '\n')
    (x : List Char) (xs : List (List Char)) (h : splitNlL rest = x :: xs) :
    splitNlL (c :: rest) = (c :: x) :: xs := by
  simp only [splitNlL, if_neg hc, h]

theorem splitNlL_append_nl (a b : List Char) :
    splitNlL (a ++ '\n' :: b) = splitNlL a ++ splitNlL b := by
  induction a with
  | nil => simp [splitNlL_cons_nl, splitNlL_nil]
  | cons c a ih =>
    by_cases hc : c = '\n'
    · subst hc
      rw [List.cons_append, splitNlL_cons_nl, splitNlL_cons_nl, ih]
      rfl
    · obtain ⟨x, xs, h⟩ := List.exists_cons_of_ne_nil (splitNlL_ne_nil a)
      have h2 : splitNlL (a ++ '\n' :: b) = x :: (xs ++ splitNlL b) := by
        rw [ih, h]; rfl
      rw [List.cons_append, splitNlL_cons c _ hc _ _ h2, splitNlL_cons c _ hc _ _ h]
      rfl

theorem splitNlL_of_not_mem (l : List Char) (h : '\n' ∉ l) : splitNlL l = [l] := by
  induction l with
  | nil => rfl
  | cons c rest ih =>
    have hc : c ≠ '\n' := fun hh => h (hh ▸ List.mem_cons_self c rest)
    have hr : '\n' ∉ rest := fun hh => h (List.mem_cons_of_mem c hh)
    rw [splitNlL_cons c rest hc rest [] (ih hr)]

theorem noNl_of_mem_splitNlL (l : List Char) (p : List Char)
    (hp : p ∈ splitNlL l) : '\n' ∉ p := by
  induction l generalizing p with
  | nil =>
    rw [splitNlL_nil] at hp
    simp at hp
    subst hp
    simp
  | cons c rest ih =>
    by_cases hc : c = '\n'
    · subst hc
      rw [splitNlL_cons_nl] at hp
      rcases List.mem_cons.mp hp with h | h
      · subst h; simp
      · exact ih p h
    · obtain ⟨x, xs, h⟩ := List.exists_cons_of_ne_nil (splitNlL_ne_nil rest)
      rw [splitNlL_cons c rest hc x xs h] at hp
      rcases List.mem_cons.mp hp with h2 | h2
      · subst h2
        intro hmem
        rcases List.mem_cons.mp hmem with h3 | h3
        · exact hc h3.symm
        · exact ih x (h ▸ List.mem_cons_self x xs) h3
      · exact ih p (h ▸ List.mem_cons_of_mem x h2)

theorem joinNlL_nil : joinNlL [] = [] := rfl

theorem joinNlL_single (x : List Char) : joinNlL [x] = x := rfl

theorem joinNlL_cons (x : List Char) (ps : List (List Char)) (h : ps ≠ []) :
    joinNlL (x :: ps) = x ++ '\n' :: joinNlL ps := by
  cases ps with
  | nil => exact absurd rfl h
  | cons y ys => rfl

theorem joinNlL_splitNlL (l : List Char) : joinNlL (splitNlL l) = l := by
  induction l with
  | nil => rfl
  | cons c rest ih =>
    by_cases hc : c = '\n'
    · subst hc
      rw [splitNlL_cons_nl, joinNlL_cons _ _ (splitNlL_ne_nil rest), ih]
      rfl
    · obtain ⟨x, xs, h⟩ := List.exists_cons_of_ne_nil (splitNlL_ne_nil rest)
      rw [splitNlL_cons c rest hc x xs h]
      cases xs with
      | nil =>
        rw [joinNlL_single]
        rw [h, joinNlL_single] at ih
        rw [ih]
      | cons z zs =>
        rw [joinNlL_cons _ _ (by simp)]
        rw [h, joinNlL_cons _ _ (by simp)] at ih
        rw [List.cons_append, ih]

theorem splitNlL_joinNlL (ps : List (List Char)) (hne : ps ≠ [])
    (h : ∀ p ∈ ps, '\n' ∉ p) : splitNlL (joinNlL ps) = ps := by
  induction ps with
  | nil => exact absurd rfl hne
  | cons p ps ih =>
    cases ps with
    | nil =>
      rw [joinNlL_single]
      exact splitNlL_of_not_mem p (h p (List.mem_cons_self p []))
    | cons q qs =>
      rw [joinNlL_cons _ _ (by simp), splitNlL_append_nl]
      rw [splitNlL_of_not_mem p (h p (List.mem_cons_self p _))]
      rw [ih (by simp) (fun r hr => h r (List.mem_cons_of_mem p hr))]
      rfl

theorem joinNlL_concat (ps : List (List Char)) (q : List Char) (h : ps ≠ []) :
    joinNlL (ps ++ [q]) = joinNlL ps ++ '\n' :: q := by
  induction ps with
  | nil => exact absurd rfl h
  | cons p ps ih =>
    cases ps with
    | nil => rfl
    | cons r rs =>
      rw [List.cons_append, joinNlL_cons _ _ (by simp),
        joinNlL_cons _ _ (by simp), ih (by simp)]
      simp

theorem joinNlL_ne_nil (qs : List (List Char)) (hne : qs ≠ [])
    (h : ∀ q ∈ qs, q ≠ []) : joinNlL qs ≠ [] := by
  cases qs with
  | nil => exact absurd rfl hne
  | cons q qs =>
    cases qs with
    | nil => exact h q (List.mem_cons_self q [])
    | cons r rs =>
      rw [joinNlL_cons _ _ (by simp)]
      simp

theorem fstrip_joinNlL (p : List Char) (ps : List (List Char)) (h : fstrip p ≠ []) :
    fstrip (joinNlL (p :: ps)) = joinNlL (fstrip p :: ps) := by
  cases ps with
  | nil => rw [joinNlL_single, joinNlL_single]
  | cons q qs =>
    rw [joinNlL_cons p _ (by simp), joinNlL_cons (fstrip p) _ (by simp), fstrip_append _ _ h]

theorem bstrip_joinNlL (ps : List (List Char)) (q : List Char) (h : bstrip q ≠ []) :
    bstrip (joinNlL (ps ++ [q])) = joinNlL (ps ++ [bstrip q]) := by
  cases ps with
  | nil => rw [List.nil_append, List.nil_append, joinNlL_single, joinNlL_single]
  | cons p rest =>
    rw [joinNlL_concat _ _ (by simp), joinNlL_concat _ _ (by simp)]
    rw [show joinNlL (p :: rest) ++ '\n' :: q = (joinNlL (p :: rest) ++ ['\n']) ++ q from by simp]
    rw [bstrip_append _ _ h]
    simp

theorem stripL_joinNlL_lines (ps : List (List Char)) (hne : ps ≠ [])
    (h : ∀ p ∈ ps, stripL p ≠ [] ∧ '\n' ∉ p) :
    ∃ qs, qs ≠ [] ∧ (∀ q ∈ qs, stripL q ≠ [] ∧ '\n' ∉ q) ∧
      stripL (joinNlL ps) = joinNlL qs := by
  obtain ⟨p0, rest, rfl⟩ := List.exists_cons_of_ne_nil hne
  have hp0 := h p0 (List.mem_cons_self p0 rest)
  have hf : fstrip p0 ≠ [] := fstrip_ne_nil_of_stripL _ hp0.1
  have step1 : stripL (joinNlL (p0 :: rest)) = bstrip (joinNlL (fstrip p0 :: rest)) := by
    unfold stripL
    rw [fstrip_joinNlL _ _ hf]
  have hgood : ∀ q ∈ fstrip p0 :: rest, stripL q ≠ [] ∧ '\n' ∉ q := by
    intro q hq
    rcases List.mem_cons.mp hq with h1 | h1
    · subst h1
      refine ⟨?_, ?_⟩
      · rw [stripL_fstrip]
        exact hp0.1
      · intro hm
        exact hp0.2 (mem_fstrip hm)
    · exact h q (List.mem_cons_of_mem _ h1)
  rcases List.eq_nil_or_concat (fstrip p0 :: rest) with hnil | ⟨init, last, hdec⟩
  · simp at hnil
  · rw [List.concat_eq_append] at hdec
    have hlastmem : last ∈ fstrip p0 :: rest := by
      rw [hdec]
      exact List.mem_append_right _ (List.mem_singleton.mpr rfl)
    have hlast := hgood last hlastmem
    have hb : bstrip last ≠ [] := bstrip_ne_nil_of_stripL _ hlast.1
    refine ⟨init ++ [bstrip last], by simp, ?_, ?_⟩
    · intro q hq
      rcases List.mem_append.mp hq with hq1 | hq1
      · have : q ∈ fstrip p0 :: rest := by
          rw [hdec]
          exact List.mem_append_left _ hq1
        exact hgood q this
      · have hq2 : q = bstrip last := by simpa using hq1
        subst hq2
        refine ⟨?_, ?_⟩
        · rw [stripL_bstrip]
          exact hlast.1
        · intro hm
          exact hlast.2 (mem_bstrip hm)
    · rw [step1, hdec, bstrip_joinNlL _ _ hb]

theorem dictInsert_nil (k v : String) : dictInsert [] k v = [(k, v)] := rfl

theorem dictInsert_cons (k1 v1 k v : String) (rest : List (String × String)) :
    dictInsert ((k1, v1) :: rest) k v =
      if k1 = k then (k, v) :: rest else (k1, v1) :: dictInsert rest k v := rfl

theorem mem_dictInsert (m : List (String × String)) (k v : String)
    (kv : String × String) (h : kv ∈ dictInsert m k v) : kv ∈ m ∨ kv = (k, v) := by
  induction m with
  | nil =>
    rw [dictInsert_nil] at h
    right
    simpa using h
  | cons e rest ih =>
    obtain ⟨k1, v1⟩ := e
    rw [dictInsert_cons] at h
    by_cases hk : k1 = k
    · rw [if_pos hk] at h
      rcases List.mem_cons.mp h with h1 | h1
      · right; exact h1
      · left; exact List.mem_cons_of_mem _ h1
    · rw [if_neg hk] at h
      rcases List.mem_cons.mp h with h1 | h1
      · left
        rw [h1]
        exact List.mem_cons_self _ _
      · rcases ih h1 with h2 | h2
        · left; exact List.mem_cons_of_mem _ h2
        · right; exact h2

theorem keys_dictInsert (m : List (String × String)) (k v a : String) :
    a ∈ (dictInsert m k v).map Prod.fst ↔ a ∈ m.map Prod.fst ∨ a = k := by
  induction m with
  | nil => simp [dictInsert_nil]
  | cons e rest ih =>
    obtain ⟨k1, v1⟩ := e
    rw [dictInsert_cons]
    by_cases hk : k1 = k
    · rw [if_pos hk]
      subst hk
      simp only [List.map_cons, List.mem_cons]
      tauto
    · rw [if_neg hk]
      simp only [List.map_cons, List.mem_cons, ih]
      tauto

theorem nodup_keys_dictInsert (m : List (String × String)) (k v : String)
    (h : (m.map Prod.fst).Nodup) : ((dictInsert m k v).map Prod.fst).Nodup := by
  induction m with
  | nil => simp [dictInsert_nil]
  | cons e rest ih =>
    obtain ⟨k1, v1⟩ := e
    simp only [List.map_cons, List.nodup_cons] at h
    rw [dictInsert_cons]
    by_cases hk : k1 = k
    · rw [if_pos hk]
      subst hk
      simp only [List.map_cons, List.nodup_cons]
      exact h
    · rw [if_neg hk]
      simp only [List.map_cons, List.nodup_cons]
      refine ⟨?_, ih h.2⟩
      intro hmem
      rcases (keys_dictInsert rest k v k1).mp hmem with h2 | h2
      · exact h.1 h2
      · exact hk h2

theorem length_dictInsert (m : List (String × String)) (k v : String) :
    (dictInsert m k v).length ≤ m.length + 1 := by
  induction m with
  | nil => simp [dictInsert_nil]
  | cons e rest ih =>
    obtain ⟨k1, v1⟩ := e
    rw [dictInsert_cons]
    by_cases hk : k1 = k
    · rw [if_pos hk]
      simp
    · rw [if_neg hk]
      simp only [List.length_cons]
      omega

theorem dictInsert_of_not_mem (m : List (String × String)) (k v : String)
    (h : k ∉ m.map Prod.fst) : dictInsert m k v = m ++ [(k, v)] := by
  induction m with
  | nil => rfl
  | cons e rest ih =>
    obtain ⟨k1, v1⟩ := e
    simp only [List.map_cons, List.mem_cons] at h
    push_neg at h
    rw [dictInsert_cons, if_neg (fun hh : k1 = k => h.1 hh.symm)]
    rw [ih h.2]
    rfl

theorem parseStep_label (st : ParseState) (line : String) (h : isLabelLine line = true) :
    parseStep st line = ⟨flushState st, some (labelOf line), []⟩ := by
  unfold parseStep
  rw [if_pos h]

theorem parseStep_body (st : ParseState) (line : String)
    (h1 : isLabelLine line = false)
    (h2 : (truthy st.currentSection && (pyStrip line != "")) = true) :
    parseStep st line = ⟨st.sections, st.currentSection, st.currentContent ++ [line]⟩ := by
  unfold parseStep
  rw [if_neg (by simp [h1]), if_pos h2]

theorem parseStep_skip (st : ParseState) (line : String)
    (h1 : isLabelLine line = false)
    (h2 : (truthy st.currentSection && (pyStrip line != "")) = false) :
    parseStep st line = st := by
  unfold parseStep
  rw [if_neg (by simp [h1]), if_neg (by simp [h2])]

theorem foldl_no_label (ls : List String) (h : ∀ l ∈ ls, isLabelLine l = false) :
    ls.foldl parseStep initState = initState := by
  induction ls with
  | nil => rfl
  | cons l ls ih =>
    rw [List.foldl_cons]
    rw [parseStep_skip initState l (h l (List.mem_cons_self l ls)) (by simp [initState, truthy])]
    exact ih (fun x hx => h x (List.mem_cons_of_mem l hx))

theorem flushState_init : flushState initState = [] := rfl

theorem parseSections_no_label (s : String)
    (h : ∀ l ∈ pySplitNl s, isLabelLine l = false) : parseSections s = [] := by
  unfold parseSections parseLines
  rw [foldl_no_label _ h, flushState_init]

theorem pyStrip_finalize (content : List String) :
    pyStrip (finalize content) = finalize content := by
  apply str_ext
  exact stripL_idem _

theorem finalize_body_nonblank (content : List String)
    (h : ∀ l ∈ content, pyStrip l ≠ "" ∧ '\n' ∉ l.data) :
    ∀ l ∈ bodyLines (finalize content), pyStrip l ≠ "" := by
  by_cases hv : finalize content = ""
  · intro l hl
    rw [bodyLines, if_pos hv] at hl
    exact absurd hl (List.not_mem_nil l)
  · cases content with
    | nil => exact absurd rfl hv
    | cons c0 cs =>
      have hps : (c0 :: cs).map String.data ≠ [] := by simp
      have hgood : ∀ p ∈ (c0 :: cs).map String.data, stripL p ≠ [] ∧ '\n' ∉ p := by
        intro p hp
        obtain ⟨l, hl, rfl⟩ := List.mem_map.mp hp
        refine ⟨?_, (h l hl).2⟩
        intro hs
        exact (h l hl).1 ((pyStrip_eq_empty_iff l).mpr hs)
      obtain ⟨qs, hqne, hq, heq⟩ := stripL_joinNlL_lines _ hps hgood
      have hdata : (finalize (c0 :: cs)).data = joinNlL qs := heq
      intro l hl
      rw [bodyLines, if_neg hv] at hl
      rw [hdata] at hl
      rw [splitNlL_joinNlL qs hqne (fun q hq2 => (hq q hq2).2)] at hl
      obtain ⟨q, hq2, rfl⟩ := List.mem_map.mp hl
      intro hs
      exact (hq q hq2).1 ((pyStrip_eq_empty_iff _).mp hs)

theorem mem_labelOf {c : Char} (line : String) (h : c ∈ (labelOf line).data) :
    c ∈ line.data := by
  unfold labelOf at h
  rw [mk_data] at h
  exact mem_stripL ((List.drop_sublist 1 _).subset ((List.dropLast_sublist _).subset h))

theorem flushState_none (st : ParseState) (h : st.currentSection = none) :
    flushState st = st.sections := by
  unfold flushState
  rw [h]

theorem flushState_some (st : ParseState) (k : String) (h : st.currentSection = some k) :
    flushState st =
      if k = "" then st.sections
      else dictInsert st.sections k (finalize st.currentContent) := by
  unfold flushState
  rw [h]

theorem flushState_inv (st : ParseState) (h : StateInv st) :
    (∀ kv ∈ flushState st, EntryInv kv) ∧ ((flushState st).map Prod.fst).Nodup := by
  obtain ⟨hent, hnd, hcont, hcur⟩ := h
  cases hc : st.currentSection with
  | none =>
    rw [flushState_none st hc]
    exact ⟨hent, hnd⟩
  | some k =>
    rw [flushState_some st k hc]
    by_cases hk : k = ""
    · rw [if_pos hk]
      exact ⟨hent, hnd⟩
    · rw [if_neg hk]
      refine ⟨?_, nodup_keys_dictInsert _ _ _ hnd⟩
      intro kv hkv
      rcases mem_dictInsert _ _ _ _ hkv with h1 | h1
      · exact hent kv h1
      · subst h1
        exact ⟨hk, hcur k hc, pyStrip_finalize _, finalize_body_nonblank _ hcont⟩

theorem stateInv_step (st : ParseState) (line : String)
    (hln : '\n' ∉ line.data) (h : StateInv st) : StateInv (parseStep st line) := by
  by_cases hl : isLabelLine line = true
  · rw [parseStep_label _ _ hl]
    obtain ⟨hf1, hf2⟩ := flushState_inv st h
    refine ⟨hf1, hf2, by simp, ?_⟩
    intro k hk
    have : k = labelOf line := by
      have := hk
      simp at this
      exact this.symm
    subst this
    intro hm
    exact hln (mem_labelOf line hm)
  · have hl2 : isLabelLine line = false := by simpa using hl
    by_cases hb : (truthy st.currentSection && (pyStrip line != "")) = true
    · rw [parseStep_body _ _ hl2 hb]
      obtain ⟨hent, hnd, hcont, hcur⟩ := h
      refine ⟨hent, hnd, ?_, hcur⟩
      intro l hl3
      rcases List.mem_append.mp hl3 with h1 | h1
      · exact hcont l h1
      · have : l = line := by simpa using h1
        subst this
        refine ⟨?_, hln⟩
        have := (Bool.and_eq_true _ _).mp hb
        exact bne_iff_ne.mp this.2
    · rw [parseStep_skip _ _ hl2 (by simpa using hb)]
      exact h

theorem initState_inv : StateInv initState := by
  refine ⟨?_, ?_, ?_, ?_⟩ <;> simp [initState]

theorem stateInv_foldl (ls : List String) (hls : ∀ l ∈ ls, '\n' ∉ l.data)
    (st : ParseState) (h : StateInv st) : StateInv (ls.foldl parseStep st) := by
  induction ls generalizing st with
  | nil => exact h
  | cons l ls ih =>
    rw [List.foldl_cons]
    exact ih (fun x hx => hls x (List.mem_cons_of_mem l hx))
      _ (stateInv_step st l (hls l (List.mem_cons_self l ls)) h)

theorem noNl_pySplitNl (s : String) (l : String) (hl : l ∈ pySplitNl s) :
    '\n' ∉ l.data := by
  obtain ⟨p, hp, rfl⟩ := List.mem_map.mp hl
  rw [mk_data]
  exact noNl_of_mem_splitNlL _ p hp

theorem parse_entries_inv (s : String) :
    (∀ kv ∈ parseSections s, EntryInv kv) ∧
      ((parseSections s).map Prod.fst).Nodup := by
  unfold parseSections parseLines
  exact flushState_inv _ (stateInv_foldl _ (noNl_pySplitNl s) _ initState_inv)

theorem finalize_bodyLines (v : String) (h1 : pyStrip v = v) :
    finalize (bodyLines v) = v := by
  by_cases hv : v = ""
  · subst hv
    rfl
  · rw [bodyLines, if_neg hv]
    unfold finalize joinNl
    have hmaps : ((splitNlL v.data).map String.mk).map String.data = splitNlL v.data := by
      rw [List.map_map]
      have : (String.data ∘ String.mk) = id := by
        funext x
        rfl
      rw [this, List.map_id]
    rw [hmaps, joinNlL_splitNlL]
    exact h1

theorem foldl_body_lines (secs : List (String × String)) (k : String) (hk : k ≠ "")
    (ls : List String) (h : ∀ l ∈ ls, isLabelLine l = false) (c : List String) :
    ls.foldl parseStep ⟨secs, some k, c⟩ =
      ⟨secs, some k, c ++ ls.filter (fun l => pyStrip l != "")⟩ := by
  induction ls generalizing c with
  | nil => simp
  | cons l ls ih =>
    have hl := h l (List.mem_cons_self l ls)
    have hrest : ∀ x ∈ ls, isLabelLine x = false :=
      fun x hx => h x (List.mem_cons_of_mem l hx)
    rw [List.foldl_cons, List.filter_cons]
    by_cases hb : pyStrip l = ""
    · have hcond : (truthy (ParseState.mk secs (some k) c).currentSection &&
          (pyStrip l != "")) = false := by
        simp [hb]
      rw [parseStep_skip _ _ hl hcond, ih hrest c]
      simp [hb]
    · have hcond : (truthy (ParseState.mk secs (some k) c).currentSection &&
          (pyStrip l != "")) = true := by
        simp [truthy, hk, hb]
      rw [parseStep_body _ _ hl hcond]
      rw [ih hrest (c ++ [l])]
      have : (pyStrip l != "") = true := bne_iff_ne.mpr hb
      simp [this]

theorem bracket_data (k : String) : ("[" ++ k ++ "]").data = '[' :: k.data ++ [']'] := by
  simp [String.data_append]

theorem stripL_bracket (k : String) :
    stripL (("[" ++ k ++ "]").data) = '[' :: k.data ++ [']'] := by
  rw [bracket_data]
  unfold stripL
  have h1 : fstrip ('[' :: k.data ++ [']']) = '[' :: k.data ++ [']'] := by
    rw [show ('[' :: k.data ++ [']'] : List Char) = '[' :: (k.data ++ [']']) from by simp]
    rw [fstrip_cons, if_neg (by decide)]
  rw [h1]
  have hb : bstrip [']'] ≠ [] := by decide
  rw [bstrip_append ('[' :: k.data) [']'] hb]
  rw [show bstrip [']'] = [']'] from by decide]

theorem isLabelLine_bracket (k : String) : isLabelLine ("[" ++ k ++ "]") = true := by
  unfold isLabelLine
  rw [stripL_bracket]
  have hh : ('[' :: k.data ++ [']'] : List Char).head? = some '[' := by
    rw [show ('[' :: k.data ++ [']'] : List Char) = '[' :: (k.data ++ [']']) from by simp]
    rfl
  have hg : ('[' :: k.data ++ [']'] : List Char).getLast? = some ']' :=
    List.getLast?_concat _
  rw [hh, hg]
  rfl

theorem labelOf_bracket (k : String) : labelOf ("[" ++ k ++ "]") = k := by
  unfold labelOf
  rw [stripL_bracket]
  rw [show ('[' :: k.data ++ [']'] : List Char) = '[' :: (k.data ++ [']']) from by simp]
  rw [List.drop_succ_cons, List.drop_zero, List.dropLast_concat]

theorem isLabelLine_empty : isLabelLine "" = false := rfl

theorem bodyLines_raw (v : String) (hlab : ∀ l ∈ bodyLines v, isLabelLine l = false) :
    ∀ l ∈ (splitNlL v.data).map String.mk, isLabelLine l = false := by
  by_cases hv : v = ""
  · subst hv
    intro l hl
    have : l = "" := by
      rw [empty_data, splitNlL_nil] at hl
      simpa using hl
    subst this
    exact isLabelLine_empty
  · intro l hl
    apply hlab
    rw [bodyLines, if_neg hv]
    exact hl

theorem bodyLines_filter (k v : String) (hinv : EntryInv (k, v)) :
    ((splitNlL v.data).map String.mk).filter (fun l => pyStrip l != "") = bodyLines v := by
  by_cases hv : v = ""
  · subst hv
    decide
  · rw [bodyLines, if_neg hv]
    apply List.filter_eq_self.mpr
    intro l hl
    apply bne_iff_ne.mpr
    apply hinv.2.2.2
    rw [bodyLines, if_neg hv]
    exact hl

theorem renderEntry_data (kv : String × String) :
    (renderEntry kv).data = ("[" ++ kv.1 ++ "]").data ++ '\n' :: kv.2.data := by
  unfold renderEntry
  simp [String.data_append]

theorem pySplitNl_renderMap (m : List (String × String)) (hm : m ≠ [])
    (hkeys : ∀ kv ∈ m, '\n' ∉ kv.1.data) :
    pySplitNl (renderMap m) =
      m.flatMap (fun kv =>
        ("[" ++ kv.1 ++ "]") :: (splitNlL kv.2.data).map String.mk) := by
  induction m with
  | nil => exact absurd rfl hm
  | cons kv m ih =>
    have hbr : '\n' ∉ ("[" ++ kv.1 ++ "]").data := by
      rw [bracket_data]
      intro hmem
      rcases List.mem_cons.mp hmem with h1 | h1
      · exact absurd h1.symm (by decide)
      · rcases List.mem_append.mp h1 with h2 | h2
        · exact hkeys kv (List.mem_cons_self kv m) h2
        · exact absurd (List.mem_singleton.mp h2).symm (by decide)
    have hsplit_entry :
        splitNlL (renderEntry kv).data =
          ("[" ++ kv.1 ++ "]").data :: splitNlL kv.2.data := by
      rw [renderEntry_data, splitNlL_append_nl, splitNlL_of_not_mem _ hbr]
      rfl
    have hmap_entry : (splitNlL (renderEntry kv).data).map String.mk
        = ("[" ++ kv.1 ++ "]") :: (splitNlL kv.2.data).map String.mk := by
      rw [hsplit_entry, List.map_cons]
    cases m with
    | nil =>
      have hone : renderMap [kv] = renderEntry kv := rfl
      unfold pySplitNl
      rw [hone, hmap_entry]
      simp
    | cons kv2 m2 =>
      have hdata : (renderMap (kv :: kv2 :: m2)).data
          = (renderEntry kv).data ++ '\n' :: (renderMap (kv2 :: m2)).data := by
        unfold renderMap joinNl
        simp only [List.map_cons, mk_data]
        rw [joinNlL_cons _ _ (by simp)]
      unfold pySplitNl
      rw [hdata, splitNlL_append_nl, List.map_append, hmap_entry]
      have htail := ih (by simp) (fun e he => hkeys e (List.mem_cons_of_mem kv he))
      unfold pySplitNl at htail
      rw [htail, List.flatMap_cons]
      simp

theorem fold_rendered (m : List (String × String))
    (hgood : ∀ kv ∈ m, EntryInv kv)
    (hlab : ∀ kv ∈ m, ∀ l ∈ bodyLines kv.2, isLabelLine l = false) :
    ∀ st : ParseState,
      flushState ((m.flatMap (fun kv =>
          ("[" ++ kv.1 ++ "]") :: (splitNlL kv.2.data).map String.mk)).foldl parseStep st)
        = m.foldl (fun acc kv => dictInsert acc kv.1 kv.2) (flushState st) := by
  induction m with
  | nil =>
    intro st
    simp
  | cons kv m ih =>
    intro st
    obtain ⟨k, v⟩ := kv
    have hinv := hgood (k, v) (List.mem_cons_self _ m)
    have hk : k ≠ "" := hinv.1
    rw [List.flatMap_cons]
    dsimp only
    rw [List.foldl_append, List.foldl_cons]
    rw [parseStep_label st _ (isLabelLine_bracket k)]
    rw [labelOf_bracket]
    rw [foldl_body_lines (flushState st) k hk _
      (bodyLines_raw v (hlab (k, v) (List.mem_cons_self _ m))) []]
    rw [List.nil_append, bodyLines_filter k v hinv]
    rw [ih (fun e he => hgood e (List.mem_cons_of_mem _ he))
      (fun e he => hlab e (List.mem_cons_of_mem _ he))]
    rw [List.foldl_cons]
    dsimp only
    have hflush : flushState ⟨flushState st, some k, bodyLines v⟩ =
        dictInsert (flushState st) k v := by
      rw [flushState_some _ k rfl, if_neg hk]
      rw [show (ParseState.mk (flushState st) (some k) (bodyLines v)).currentContent =
        bodyLines v from rfl]
      rw [finalize_bodyLines v hinv.2.2.1]
    rw [hflush]

theorem foldl_dictInsert_fresh (m : List (String × String)) :
    ∀ acc : List (String × String), (m.map Prod.fst).Nodup →
      (∀ a ∈ m.map Prod.fst, a ∉ acc.map Prod.fst) →
      m.foldl (fun acc2 kv => dictInsert acc2 kv.1 kv.2) acc = acc ++ m := by
  induction m with
  | nil =>
    intro acc _ _
    simp
  | cons kv m ih =>
    intro acc hnd hdis
    obtain ⟨k, v⟩ := kv
    rw [List.foldl_cons]
    rw [dictInsert_of_not_mem acc k v (hdis k (by simp))]
    rw [ih (acc ++ [(k, v)]) (by simp at hnd; exact hnd.2) ?_]
    · simp
    · intro a ha
      simp only [List.map_append, List.mem_append] at *
      push_neg
      constructor
      · exact hdis a (by simp [ha])
      · intro hmem
        have : a = k := by simpa using hmem
        subst this
        simp only [List.map_cons, List.nodup_cons] at hnd
        exact hnd.1 ha

theorem flushState_length (st : ParseState) :
    (flushState st).length ≤ st.sections.length + (truthy st.currentSection).toNat := by
  cases hc : st.currentSection with
  | none =>
    rw [flushState_none st hc]
    simp
  | some k =>
    rw [flushState_some st k hc]
    by_cases hk : k = ""
    · rw [if_pos hk]
      simp
    · rw [if_neg hk]
      have h1 := length_dictInsert st.sections k (finalize st.currentContent)
      have h2 : (truthy (some k)).toNat = 1 := by
        simp [truthy, hk]
      omega

theorem foldl_label_count (ls : List String) :
    ∀ st : ParseState,
      (flushState (ls.foldl parseStep st)).length ≤
        st.sections.length + (truthy st.currentSection).toNat +
          (ls.filter (fun l => isLabelLine l)).length := by
  induction ls with
  | nil =>
    intro st
    have := flushState_length st
    simpa using this
  | cons l ls ih =>
    intro st
    rw [List.foldl_cons, List.filter_cons]
    by_cases hl : isLabelLine l = true
    · rw [parseStep_label st l hl, if_pos hl]
      have h1 := ih ⟨flushState st, some (labelOf l), []⟩
      have h2 := flushState_length st
      have h3 : (truthy (some (labelOf l))).toNat ≤ 1 := by
        cases truthy (some (labelOf l)) <;> simp
      simp only [List.length_cons] at *
      omega
    · have hl2 : isLabelLine l = false := by simpa using hl
      rw [if_neg (by simp [hl2])]
      by_cases hb : (truthy st.currentSection && (pyStrip l != "")) = true
      · rw [parseStep_body st l hl2 hb]
        exact ih ⟨st.sections, st.currentSection, st.currentContent ++ [l]⟩
      · rw [parseStep_skip st l hl2 (by simpa using hb)]
        exact ih st

theorem gpt_analyze_all_ok (key : String) (result : String) :
    gpt_analyze_all (some key) (UpstreamResult.ok result) =
      if (parseSections result).isEmpty then [("핵심요약", result)]
      else parseSections result := rfl

theorem gpt_analyze_structure_ok (key : String) (result : String) :
    gpt_analyze_structure (some key) (UpstreamResult.ok result) =
      if (parseSections result).isEmpty then [("error", "구조 분석 실패")]
      else parseSections result := rfl

theorem strTake_length (s : String) (n : Nat) :
    (strTake s n).length = min n s.length := by
  unfold strTake
  show (s.data.take n).length = min n s.data.length
  exact List.length_take n s.data

/-- C1 counterexample: the claim asserts that at every parse call site a
zero-label response yields a single fallback entry whose value is the
raw input.  At the `gpt_analyze_structure` call site (source line 192)
the fallback entry's value is the constant message "구조 분석 실패", not the
raw response "no labels here at all", so the claimed contract fails
there. -/
theorem structure_fallback_discards_raw :
    gpt_analyze_structure (some "k") (UpstreamResult.ok "no labels here at all")
        = [("error", "구조 분석 실패")] ∧
      ("구조 분석 실패" : String) ≠ "no labels here at all" := by
  constructor
  · decide
  · decide

/-- C1 (amended): for every response with zero label lines, the
`gpt_analyze_all` call site (line 124) returns the single fallback entry
`핵심요약 ↦ raw untrimmed response`; the `gpt_analyze_structure` call site
(line 192) instead returns the constant single entry
`error ↦ "구조 분석 실패"`, discarding the response, so the raw-input fallback
contract holds at the first call site but not at every call site. -/
theorem untagged_fallback_per_call_site (apiKey : String) (input : String)
    (h : ∀ l ∈ pySplitNl input, isLabelLine l = false) :
    gpt_analyze_all (some apiKey) (UpstreamResult.ok input) = [("핵심요약", input)] ∧
      gpt_analyze_structure (some apiKey) (UpstreamResult.ok input)
        = [("error", "구조 분석 실패")] := by
  have hp := parseSections_no_label input h
  constructor
  · rw [gpt_analyze_all_ok, hp]
    rfl
  · rw [gpt_analyze_structure_ok, hp]
    rfl

/-- C1 witness: the amended theorem applied to the concrete zero-label
input "no labels here at all". -/
theorem untagged_fallback_per_call_site_w :
    gpt_analyze_all (some "k") (UpstreamResult.ok "no labels here at all")
        = [("핵심요약", "no labels here at all")] ∧
      gpt_analyze_structure (some "k") (UpstreamResult.ok "no labels here at all")
        = [("error", "구조 분석 실패")] :=
  untagged_fallback_per_call_site "k" "no labels here at all" (by decide)

/-- C2: a line opens a new section (sets the `current_section`
variable) exactly when its whitespace-stripped form starts with `[` and
ends with `]`; the label is the stripped line with exactly one leading
and one trailing character removed, so `[A] text [B]` opens the section
labelled `A] text [B`. -/
theorem label_line_recognition (st : ParseState) (line : String) :
    ((parseStep st line).currentSection =
        if isLabelLine line then some (labelOf line) else st.currentSection) ∧
      (isLabelLine line =
        (((pyStrip line).data.head? == some '[') &&
          ((pyStrip line).data.getLast? == some ']'))) ∧
      labelOf line = String.mk (((pyStrip line).data.drop 1).dropLast) ∧
      labelOf "[A] text [B]" = "A] text [B" := by
  refine ⟨?_, rfl, rfl, by decide⟩
  by_cases hl : isLabelLine line = true
  · rw [parseStep_label st line hl, if_pos hl]
  · have hl2 : isLabelLine line = false := by simpa using hl
    rw [if_neg (by simp [hl2])]
    unfold parseStep
    rw [if_neg (by simp [hl2])]
    split
    · rfl
    · rfl

/-- C4: lines before the first label line contribute nothing; a blank
non-label line is discarded; a non-blank non-label line inside an open
section is appended in its original unstripped form; bodies are joined
with newlines and trimmed once at the end, so parsing
"[S]\nline1\n\nline2" returns S ↦ "line1\nline2". -/
theorem body_line_accumulation :
    (∀ pre rest : List String, (∀ l ∈ pre, isLabelLine l = false) →
        parseLines (pre ++ rest) = parseLines rest) ∧
      (∀ (st : ParseState) (line : String), isLabelLine line = false →
        pyStrip line = "" → parseStep st line = st) ∧
      (∀ (st : ParseState) (line : String), isLabelLine line = false →
        truthy st.currentSection = true → pyStrip line ≠ "" →
        parseStep st line = ⟨st.sections, st.currentSection, st.currentContent ++ [line]⟩) ∧
      parseSections "[S]\nline1\n\nline2" = [("S", "line1\nline2")] := by
  refine ⟨?_, ?_, ?_, by decide⟩
  · intro pre rest h
    unfold parseLines
    rw [List.foldl_append, foldl_no_label pre h]
  · intro st line h1 h2
    exact parseStep_skip st line h1 (by simp [h2])
  · intro st line h1 h2 h3
    refine parseStep_body st line h1 ?_
    rw [h2, Bool.true_and]
    exact bne_iff_ne.mpr h3

/-- C4 witness: the accumulation rules applied at concrete inputs — a
discarded pre-label line, a discarded blank line, and an appended
unstripped body line. -/
theorem body_line_accumulation_w :
    parseLines (["junk"] ++ ["[S]", "body"]) = parseLines ["[S]", "body"] ∧
      parseStep initState "   " = initState ∧
      parseStep ⟨[], some "S", []⟩ " x" = ⟨[], some "S", [] ++ [" x"]⟩ :=
  ⟨body_line_accumulation.1 ["junk"] ["[S]", "body"] (by decide),
    body_line_accumulation.2.1 initState "   " (by decide) (by decide),
    body_line_accumulation.2.2.1 ⟨[], some "S", []⟩ " x"
      (by decide) (by decide) (by decide)⟩

/-- C5 counterexample: the claim allows the entry count to fall below
the label-line count only when two same-label lines are adjacent with no
distinguishing content.  In "[X]\na\n[X]\nb" the two [X] lines are
separated by the non-blank non-label line "a", yet the parser finalizes
1 entry from 2 label lines, refuting the claimed equality condition. -/
theorem entries_lt_labels_nonadjacent :
    (parseSections "[X]\na\n[X]\nb").length = 1 ∧
      numLabelLines "[X]\na\n[X]\nb" = 2 ∧
      pySplitNl "[X]\na\n[X]\nb" = ["[X]", "a", "[X]", "b"] ∧
      isLabelLine "a" = false ∧ pyStrip "a" ≠ "" :=
  ⟨by decide, by decide, by decide, by decide, by decide⟩

/-- C5 (amended): for every input the number of finalized entries is at
most the number of label lines encountered; the inequality can be
strict even for non-adjacent label lines (any repeated label text, or an
empty `[]` label, loses an entry). -/
theorem entries_le_label_lines (s : String) :
    (parseSections s).length ≤ numLabelLines s := by
  unfold parseSections parseLines numLabelLines
  have := foldl_label_count (pySplitNl s) initState
  simpa [initState, truthy] using this

/-- C6: round-trip stability — rendering every entry of a parse result
as `[key]` on its own line followed by the body, joining the rendered
entries with a newline, and re-parsing reproduces the same SectionMap,
provided no body line itself satisfies the label-line recognition
rule. -/
theorem render_parse_round_trip (s : String)
    (hb : ∀ kv ∈ parseSections s, ∀ l ∈ bodyLines kv.2, isLabelLine l = false) :
    parseSections (renderMap (parseSections s)) = parseSections s := by
  obtain ⟨hent, hnd⟩ := parse_entries_inv s
  cases hm : parseSections s with
  | nil =>
    rw [show renderMap ([] : List (String × String)) = "" from rfl]
    decide
  | cons kv m2 =>
    rw [hm] at hent hnd hb
    have hkeys : ∀ e ∈ kv :: m2, '\n' ∉ e.1.data := fun e he => (hent e he).2.1
    unfold parseSections parseLines
    rw [pySplitNl_renderMap _ (by simp) hkeys]
    rw [fold_rendered _ hent hb initState]
    rw [flushState_init]
    rw [foldl_dictInsert_fresh (kv :: m2) [] hnd (by simp)]
    simp

/-- C6 witness: round trip at the concrete two-section input
"[A]\nx\n[B]\ny". -/
theorem render_parse_round_trip_w :
    parseSections (renderMap (parseSections "[A]\nx\n[B]\ny")) =
      parseSections "[A]\nx\n[B]\ny" :=
  render_parse_round_trip "[A]\nx\n[B]\ny" (by decide)

/-- C7: the parser is a total function — every input string produces a
SectionMap — and adjacent label lines are handled, the intervening body
collapsing to the empty string: "[A]\n[B]\ntext" parses to
A ↦ "", B ↦ "text", and a label-free input parses to the empty map
(handled by the caller fallback, not a failure). -/
theorem parser_total_and_adjacent_labels :
    (∀ s : String, ∃ m : List (String × String), parseSections s = m) ∧
      parseSections "[A]\n[B]\ntext" = [("A", ""), ("B", "text")] ∧
      parseSections "no labels here at all" = [] :=
  ⟨fun s => ⟨parseSections s, rfl⟩, by decide, by decide⟩

/-- C8: an upstream failure — a raised exception at the call site, or an
unconfigured API key — is converted into a returned map holding exactly
one entry under the reserved "error" key with a descriptive message, for
both embedded analysis operations; the result is produced without ever
consulting the section parser. -/
theorem upstream_failure_error_map (apiKey : Option String)
    (up : UpstreamResult) (msg : String) :
    gpt_analyze_all apiKey (UpstreamResult.exn msg) =
        [("error", if apiKey.isSome then "GPT 분석 실패: " ++ msg
          else "OpenAI API 키가 설정되지 않았습니다.")] ∧
      gpt_analyze_all none up = [("error", "OpenAI API 키가 설정되지 않았습니다.")] ∧
      gpt_analyze_structure apiKey (UpstreamResult.exn msg) =
        [("error", if apiKey.isSome then "구조 분석 실패: " ++ msg
          else "OpenAI API 키가 설정되지 않았습니다.")] ∧
      gpt_analyze_structure none up = [("error", "OpenAI API 키가 설정되지 않았습니다.")] := by
  refine ⟨?_, ?_, ?_, ?_⟩
  · cases apiKey <;> rfl
  · cases up <;> rfl
  · cases apiKey <;> rfl
  · cases up <;> rfl

/-- C9: in the reference analysis, when no heading pattern matched or
the matched section is shorter than 200 characters, the analysis text
falls back to the trailing 20% of the document truncated to its first
8000 characters, and only when that trailing part is longer than 500
characters; a matched section of at least 200 characters is used as
is.  (The source computes the 80% cut index with a float multiply; the
embedding uses the exact ⌊4n/5⌋.) -/
theorem references_trailing_fallback (matched : Option String) (text : String) :
    ((matchedRef matched).length < 200 →
        refSectionOf matched text =
          (if 500 < (strDrop text (refCut text.length)).length
           then strTake (strDrop text (refCut text.length)) 8000
           else matchedRef matched)) ∧
      (200 ≤ (matchedRef matched).length →
        refSectionOf matched text = matchedRef matched) ∧
      (∀ g, matched = some g →
        ((matchedRef matched).length < 200 ↔ g.length < 200)) := by
  refine ⟨?_, ?_, ?_⟩
  · intro h
    unfold refSectionOf
    rw [if_pos (by simp [h])]
  · intro h
    have h1 : ¬(matchedRef matched = "") := by
      intro hh
      rw [hh] at h
      simp at h
    unfold refSectionOf
    rw [if_neg ?_]
    simp only [Bool.or_eq_true, decide_eq_true_eq]
    push_neg
    exact ⟨h1, by omega⟩
  · intro g hg
    subst hg
    show (strTake g 8000).length < 200 ↔ g.length < 200
    rw [strTake_length]
    omega

set_option maxRecDepth 8192 in
/-- C9 witness: the fallback rule at concrete inputs — no match with a
short document (trailing part not longer than 500 characters, so the
empty matched section is kept), and a 200-character matched section used
as is. -/
theorem references_trailing_fallback_w :
    refSectionOf none "short text" = "" ∧
      refSectionOf (some (String.mk (List.replicate 200 'r'))) "t"
        = String.mk (List.replicate 200 'r') := by
  constructor
  · have h := (references_trailing_fallback none "short text").1 (by decide)
    rw [h]
    decide
  · have h := (references_trailing_fallback
        (some (String.mk (List.replicate 200 'r'))) "t").2.1 (by decide)
    rw [h]
    decide

/-- C10: every value stored by the section-parsing loop (the fallback
and error substitutes aside) carries no leading or trailing whitespace,
and every line of a stored body is non-blank (the empty body has no
lines). -/
theorem stored_values_trimmed_nonblank (s : String) (kv : String × String)
    (h : kv ∈ parseSections s) :
    pyStrip kv.2 = kv.2 ∧ ∀ l ∈ bodyLines kv.2, pyStrip l ≠ "" := by
  have h2 := (parse_entries_inv s).1 kv h
  exact ⟨h2.2.2.1, h2.2.2.2⟩

/-- C10 witness: the invariant at the concrete parse of "[A]\n x \nb",
whose stored value is "x \nb". -/
theorem stored_values_trimmed_nonblank_w :
    pyStrip ("x \nb") = "x \nb" ∧
      ∀ l ∈ bodyLines ("x \nb"), pyStrip l ≠ "" :=
  stored_values_trimmed_nonblank "[A]\n x \nb" ("A", "x \nb") (by decide)
